import Mathlib

/-!
Verification development for the ChildChainGaugeInjector repository
(`periodicRewardsInjector`): a periodic disbursement controller that holds a
token balance and, on external trigger, injects a fixed amount per period to
each registered recipient, enforcing a minimum inter-injection interval, a
per-recipient round cap, and a global pause switch.

The repository ships only the deployment script and the brownie test suite for
the contract; the contract body itself is not part of the repository sources.
The behavioural definitions below are therefore modelled from the repository's
specification document (data model §3, eligibility engine §4.2, injection
executor §4.3, admin surface §4.4), and the numeric deployment constants are
taken directly from `scripts/deploy.py` and `tests/conftest.py`.
-/

/-- Addresses (recipients, assets, holders) are modelled as natural numbers. -/
abbrev Addr := Nat

/-- Modelled from the spec: the per-recipient record of the Recipient Registry
(§3 RecipientRecord); the contract storing it is not in the repository
sources. -/
structure RecipientRecord where
  isActive : Bool
  amountPerPeriod : Nat
  maxPeriods : Nat
  periodsExecuted : Nat
  lastInjectionTimestamp : Nat
  deriving DecidableEq, Repr

/-- Modelled from the spec: the external environment a single call observes —
the trusted clock and, per recipient, the externally tracked period-end time
(§2 Recipient State Interface, §6 periodInfo). -/
structure Env where
  now : Nat
  periodFinished : Addr → Nat

/-- Modelled from the spec: the persisted state of the injector contract
(§3 GlobalConfig + watchlist + records), together with the external asset
ledger (balances per asset per holder) and the log of deposit notifications
sent to recipients. `self` is the controller's own address. -/
structure World where
  owner : Addr
  pendingOwner : Addr
  paused : Bool
  minWaitPeriodSeconds : Nat
  asset : Addr
  self : Addr
  watchList : List Addr
  accounts : Addr → RecipientRecord
  ledger : Addr → Addr → Nat
  notifications : List (Addr × Addr × Nat)

/-- Modelled from the spec: the failure signals surfaced at the boundary
(§6). -/
inductive Err where
  | Unauthorized
  | Paused
  | InvalidInput
  | NotFound
  deriving DecidableEq, Repr

/-- Modelled from the spec: an asset-ledger transfer (§6 `transfer`): move
`amt` of `asset` from `src` to `dst`; a self-transfer is a net no-op. -/
def doTransfer (led : Addr → Addr → Nat) (asset src dst amt : Addr) :
    Addr → Addr → Nat :=
  fun a h =>
    if a = asset then
      if src = dst then led a h
      else if h = src then led a h - amt
      else if h = dst then led a h + amt
      else led a h
    else led a h

/-- Modelled from the spec: the inter-injection wait condition — at least
`minWait` seconds elapsed since `lastInj`, or no injection has happened yet
(§3 invariant, §5). -/
def waitOk (minWait now lastInj : Nat) : Bool :=
  lastInj == 0 || decide (lastInj + minWait ≤ now)

/-- Modelled from the spec: the per-record part of the eligibility predicate
(§4.2): active, round cap not reached, the externally reported period end is
strictly in the past, and the wait condition holds. -/
def eligibleRecord (minWait now pf : Nat) (t : RecipientRecord) : Bool :=
  t.isActive && decide (t.periodsExecuted < t.maxPeriods) &&
    decide (pf < now) && waitOk minWait now t.lastInjectionTimestamp

/-- Modelled from the spec: the eligibility scan of `checkUpkeep` (§4.2):
iterate the watchlist in order, checking the shared balance cumulatively — an
included recipient virtually depletes the running balance; a recipient whose
amount does not fit the running balance is skipped for this call without
consuming balance. -/
def getEligibleList (minWait now : Nat) (pf : Addr → Nat)
    (acc : Addr → RecipientRecord) : List Addr → Nat → List Addr
  | [], _ => []
  | r :: rest, bal =>
    if eligibleRecord minWait now (pf r) (acc r) &&
        decide ((acc r).amountPerPeriod ≤ bal) then
      r :: getEligibleList minWait now pf acc rest (bal - (acc r).amountPerPeriod)
    else
      getEligibleList minWait now pf acc rest bal

/-- Modelled from the spec: `checkUpkeep` (§4.2) — fails with `Paused` when
paused, otherwise returns whether upkeep is needed and the eligible subset of
the watchlist; it is a pure read and returns no new state. -/
def checkUpkeep (e : Env) (w : World) : Except Err (Bool × List Addr) :=
  if w.paused then Except.error Err.Paused
  else
    Except.ok
      (!(getEligibleList w.minWaitPeriodSeconds e.now e.periodFinished
          w.accounts w.watchList (w.ledger w.asset w.self)).isEmpty,
        getEligibleList w.minWaitPeriodSeconds e.now e.periodFinished
          w.accounts w.watchList (w.ledger w.asset w.self))

/-- Modelled from the spec: the executor's re-validation guard for one
candidate (§4.3): the §4.2 eligibility predicate evaluated against current
state, including the current local balance. -/
def injectGuard (e : Env) (w : World) (r : Addr) : Bool :=
  eligibleRecord w.minWaitPeriodSeconds e.now (e.periodFinished r) (w.accounts r) &&
    decide ((w.accounts r).amountPerPeriod ≤ w.ledger w.asset w.self)

/-- Modelled from the spec: execution of one candidate inside `performUpkeep`
(§4.3): if still eligible, transfer `amountPerPeriod` to the recipient, notify
it of the deposit, increment `periodsExecuted` and stamp
`lastInjectionTimestamp`; otherwise silently skip. -/
def injectOne (e : Env) (w : World) (r : Addr) : World :=
  if injectGuard e w r then
    { w with
      ledger := doTransfer w.ledger w.asset w.self r (w.accounts r).amountPerPeriod,
      notifications := w.notifications ++ [(r, w.asset, (w.accounts r).amountPerPeriod)],
      accounts := fun a =>
        if a = r then
          { w.accounts r with
            periodsExecuted := (w.accounts r).periodsExecuted + 1,
            lastInjectionTimestamp := e.now }
        else w.accounts a }
  else w

/-- Modelled from the spec: `performUpkeep` (§4.3) — fails with `Paused` when
paused, otherwise decodes the candidate set and processes each candidate with
skip-and-continue semantics; callable by anyone. -/
def performUpkeep (e : Env) (w : World) (enc : List Addr) : Except Err World :=
  if w.paused then Except.error Err.Paused
  else Except.ok (List.foldl (injectOne e) w enc)

/-- Modelled from the spec: deactivation of every previously watched recipient
during a bulk re-registration (§4.1). -/
def deactivateAll (old : List Addr) (acc : Addr → RecipientRecord) :
    Addr → RecipientRecord :=
  fun a => if a ∈ old then { acc a with isActive := false } else acc a

/-- Modelled from the spec: sequential registration of the new recipients
during `setRecipientList` (§4.1): each named recipient gets a fresh record
with the given amount and cap, `periodsExecuted = 0` and
`lastInjectionTimestamp` unset; a recipient named twice keeps the last
assignment, as the registry is keyed by identity. -/
def registerAll : List Addr → List Nat → List Nat →
    (Addr → RecipientRecord) → Addr → RecipientRecord
  | r :: rs, amt :: amts, mx :: mxs, acc =>
    registerAll rs amts mxs
      (fun a => if a = r then ⟨true, amt, mx, 0, 0⟩ else acc a)
  | _, _, _, acc => acc

/-- Modelled from the spec: `setRecipientList` (§4.1) — owner-only, fails with
`InvalidInput` on mismatched lengths, otherwise atomically replaces the whole
watchlist and re-registers every named recipient. -/
def setRecipientList (caller : Addr) (rs : List Addr) (amts mxs : List Nat)
    (w : World) : Except Err World :=
  if caller = w.owner then
    if rs.length = amts.length ∧ rs.length = mxs.length then
      Except.ok { w with
        watchList := rs,
        accounts := registerAll rs amts mxs (deactivateAll w.watchList w.accounts) }
    else Except.error Err.InvalidInput
  else Except.error Err.Unauthorized

/-- Modelled from the spec: `getWatchList` (§4.1). -/
def getWatchList (w : World) : List Addr := w.watchList

/-- Modelled from the spec: `getAccountInfo` (§4.1) — read-only snapshot of a
recipient record. -/
def getAccountInfo (w : World) (r : Addr) : Bool × Nat × Nat × Nat × Nat :=
  let t := w.accounts r
  (t.isActive, t.amountPerPeriod, t.maxPeriods, t.periodsExecuted,
    t.lastInjectionTimestamp)

/-- Modelled from the spec: `pause` (§4.4), owner-only. -/
def pauseOp (caller : Addr) (w : World) : Except Err World :=
  if caller = w.owner then Except.ok { w with paused := true }
  else Except.error Err.Unauthorized

/-- Modelled from the spec: `unpause` (§4.4), owner-only. -/
def unpauseOp (caller : Addr) (w : World) : Except Err World :=
  if caller = w.owner then Except.ok { w with paused := false }
  else Except.error Err.Unauthorized

/-- Modelled from the spec: `sweep` (§4.4) — owner-only; transfers the entire
local balance of `asset` to `dest`; touches no registry bookkeeping. -/
def sweep (caller asset dest : Addr) (w : World) : Except Err World :=
  if caller = w.owner then
    Except.ok { w with
      ledger := doTransfer w.ledger asset w.self dest (w.ledger asset w.self) }
  else Except.error Err.Unauthorized

/-- Modelled from the spec: `manualDeposit` (§4.4) — owner-only; bypasses the
eligibility checks, performs an immediate deposit plus notification and
updates `lastInjectionTimestamp` without incrementing `periodsExecuted`. -/
def manualDeposit (e : Env) (caller r asset : Addr) (amt : Nat) (w : World) :
    Except Err World :=
  if caller = w.owner then
    Except.ok { w with
      ledger := doTransfer w.ledger asset w.self r amt,
      notifications := w.notifications ++ [(r, asset, amt)],
      accounts := fun a =>
        if a = r then { w.accounts r with lastInjectionTimestamp := e.now }
        else w.accounts a }
  else Except.error Err.Unauthorized

/-- Modelled from the spec: `transferOwnership` (§4.4) — sets the pending
owner slot; ownership is unchanged until accepted. -/
def transferOwnership (caller newOwner : Addr) (w : World) : Except Err World :=
  if caller = w.owner then Except.ok { w with pendingOwner := newOwner }
  else Except.error Err.Unauthorized

/-- Modelled from the spec: `acceptOwnership` (§4.4) — callable only by the
pending owner; completes the transfer and clears the slot. -/
def acceptOwnership (caller : Addr) (w : World) : Except Err World :=
  if caller = w.pendingOwner then
    Except.ok { w with owner := caller, pendingOwner := 0 }
  else Except.error Err.Unauthorized

/-- Operation labels for traces over the contract surface, plus an external
token transfer performed by the environment. -/
inductive Op where
  | opSetRecipientList (caller : Addr) (rs : List Addr) (amts mxs : List Nat)
  | opCheckUpkeep (caller : Addr)
  | opPerformUpkeep (caller : Addr) (enc : List Addr)
  | opPause (caller : Addr)
  | opUnpause (caller : Addr)
  | opSweep (caller asset dest : Addr)
  | opManualDeposit (caller r asset : Addr) (amt : Nat)
  | opTransferOwnership (caller newOwner : Addr)
  | opAcceptOwnership (caller : Addr)
  | opExtTransfer (asset src dst : Addr) (amt : Nat)

/-- A failed call leaves the persisted state unchanged. -/
def orUnchanged (w : World) : Except Err World → World
  | Except.ok w2 => w2
  | Except.error _ => w

/-- One labelled step of the system: the contract operation's state effect,
with failures collapsed to no state change; `checkUpkeep` is a pure read
(§4.2) and has no state effect. -/
def step (e : Env) (o : Op) (w : World) : World :=
  match o with
  | Op.opSetRecipientList c rs amts mxs => orUnchanged w (setRecipientList c rs amts mxs w)
  | Op.opCheckUpkeep _ => w
  | Op.opPerformUpkeep _ enc => orUnchanged w (performUpkeep e w enc)
  | Op.opPause c => orUnchanged w (pauseOp c w)
  | Op.opUnpause c => orUnchanged w (unpauseOp c w)
  | Op.opSweep c a d => orUnchanged w (sweep c a d w)
  | Op.opManualDeposit c r a amt => orUnchanged w (manualDeposit e c r a amt w)
  | Op.opTransferOwnership c n => orUnchanged w (transferOwnership c n w)
  | Op.opAcceptOwnership c => orUnchanged w (acceptOwnership c w)
  | Op.opExtTransfer a s d amt => { w with ledger := doTransfer w.ledger a s d amt }

/-- Run a trace of labelled steps. -/
def run (tr : List (Env × Op)) (w : World) : World :=
  List.foldl (fun w p => step p.1 p.2 w) w tr

/-- Recognizer for the operations that re-register a given recipient: the
registry bulk-set operations that name it in their recipient sequence. -/
def reregisters (r : Addr) : Op → Bool
  | Op.opSetRecipientList _ rs _ _ => decide (r ∈ rs)
  | _ => false

/-- Recognizer for eligibility-check operations. -/
def isCheckOp : Op → Bool
  | Op.opCheckUpkeep _ => true
  | _ => false

/-- Sum of the registered per-period amounts over a list of recipients. -/
def sumAmounts (acc : Addr → RecipientRecord) (l : List Addr) : Nat :=
  (l.map fun r => (acc r).amountPerPeriod).sum

/-- Registry invariant: no recipient's executed-round counter ever exceeds its
cap (§3). -/
def PeriodsInv (w : World) : Prop :=
  ∀ r, (w.accounts r).periodsExecuted ≤ (w.accounts r).maxPeriods

/-- A recipient whose round cap is reached (§4.3 `Exhausted`). -/
def ExhaustedAt (w : World) (r : Addr) : Prop :=
  (w.accounts r).periodsExecuted = (w.accounts r).maxPeriods

/-- Constant from `src/scripts/deploy.py`: the `minWaitPeriodSeconds`
constructor argument of the production deployment, written `60 * 60 * 7` with
an inline comment claiming it is one week. -/
def deployMinWaitPeriodSeconds : Nat := 60 * 60 * 7

/-- Constant from `src/tests/conftest.py`: the `minWaitPeriodSeconds`
constructor argument of the test deployment, written `60*5`. -/
def conftestMinWaitPeriodSeconds : Nat := 60 * 5

/-- One week in seconds. -/
def secondsPerWeek : Nat := 7 * 24 * 60 * 60

/-- Processing one candidate does not change the pause flag. -/
theorem injectOne_paused (e : Env) (w : World) (x : Addr) :
    (injectOne e w x).paused = w.paused := by
  unfold injectOne; split <;> rfl

/-- Processing one candidate does not change the configured wait period. -/
theorem injectOne_minWait (e : Env) (w : World) (x : Addr) :
    (injectOne e w x).minWaitPeriodSeconds = w.minWaitPeriodSeconds := by
  unfold injectOne; split <;> rfl

/-- Processing one candidate does not change the configured asset. -/
theorem injectOne_asset (e : Env) (w : World) (x : Addr) :
    (injectOne e w x).asset = w.asset := by
  unfold injectOne; split <;> rfl

/-- Processing one candidate does not change the controller address. -/
theorem injectOne_self (e : Env) (w : World) (x : Addr) :
    (injectOne e w x).self = w.self := by
  unfold injectOne; split <;> rfl

/-- Processing one candidate does not change the watchlist. -/
theorem injectOne_watchList (e : Env) (w : World) (x : Addr) :
    (injectOne e w x).watchList = w.watchList := by
  unfold injectOne; split <;> rfl

/-- Processing one candidate does not change the owner. -/
theorem injectOne_owner (e : Env) (w : World) (x : Addr) :
    (injectOne e w x).owner = w.owner := by
  unfold injectOne; split <;> rfl

/-- Processing candidate `x` leaves every other recipient's record alone. -/
theorem injectOne_accounts_ne (e : Env) (w : World) (x r : Addr) (h : r ≠ x) :
    (injectOne e w x).accounts r = w.accounts r := by
  unfold injectOne; split
  · simp [h]
  · rfl

/-- Processing one candidate can only decrease the controller's balance of the
configured asset. -/
theorem injectOne_balance_le (e : Env) (w : World) (x : Addr) :
    (injectOne e w x).ledger w.asset w.self ≤ w.ledger w.asset w.self := by
  unfold injectOne; split
  · unfold doTransfer
    by_cases hx : w.self = x
    · simp [hx]
    · simp [hx, Nat.sub_le]
  · exact le_refl _

/-- A candidate that fails re-validation is skipped: no state change. -/
theorem injectOne_of_guard_false (e : Env) (w : World) (r : Addr)
    (h : injectGuard e w r = false) : injectOne e w r = w := by
  simp [injectOne, h]

/-- The pause flag survives a whole candidate batch. -/
theorem foldl_injectOne_paused (e : Env) (l : List Addr) : ∀ w : World,
    (List.foldl (injectOne e) w l).paused = w.paused := by
  induction l with
  | nil => intro w; rfl
  | cons x xs ih => intro w; rw [List.foldl_cons, ih, injectOne_paused]

/-- The configured wait period survives a whole candidate batch. -/
theorem foldl_injectOne_minWait (e : Env) (l : List Addr) : ∀ w : World,
    (List.foldl (injectOne e) w l).minWaitPeriodSeconds = w.minWaitPeriodSeconds := by
  induction l with
  | nil => intro w; rfl
  | cons x xs ih => intro w; rw [List.foldl_cons, ih, injectOne_minWait]

/-- A failed re-validation guard stays failed after any further candidate is
processed: the record is untouched and the balance can only shrink. -/
theorem injectGuard_false_step (e : Env) (w : World) (x r : Addr)
    (h : injectGuard e w r = false) : injectGuard e (injectOne e w x) r = false := by
  by_cases hx : x = r
  · subst hx
    rw [injectOne_of_guard_false e w x h]; exact h
  · unfold injectGuard at h ⊢
    rw [injectOne_minWait, injectOne_accounts_ne e w x r (fun hrx => hx hrx.symm),
      injectOne_asset, injectOne_self]
    cases hA : eligibleRecord w.minWaitPeriodSeconds e.now (e.periodFinished r)
        (w.accounts r) with
    | false => simp [hA]
    | true =>
      rw [hA] at h
      simp only [Bool.true_and] at h ⊢
      simp only [decide_eq_false_iff_not] at h ⊢
      intro hle
      exact h (le_trans hle (injectOne_balance_le e w x))

/-- A failed re-validation guard stays failed through a whole batch. -/
theorem injectGuard_false_foldl (e : Env) (l : List Addr) : ∀ (w : World) (r : Addr),
    injectGuard e w r = false → injectGuard e (List.foldl (injectOne e) w l) r = false := by
  induction l with
  | nil => intro w r h; exact h
  | cons x xs ih =>
    intro w r h
    rw [List.foldl_cons]
    exact ih _ r (injectGuard_false_step e w x r h)

/-- In a successfully validated injection the clock is positive, because the
externally reported period end lies strictly before it. -/
theorem injectGuard_now_pos (e : Env) (w : World) (r : Addr)
    (h : injectGuard e w r = true) : 0 < e.now := by
  unfold injectGuard eligibleRecord at h
  simp only [Bool.and_eq_true, decide_eq_true_eq] at h
  omega

/-- With a positive wait period, a freshly injected recipient immediately
fails re-validation: its stamp equals the clock, so the wait condition is
violated. -/
theorem injectGuard_true_self (e : Env) (w : World) (r : Addr)
    (hmw : 0 < w.minWaitPeriodSeconds) (h : injectGuard e w r = true) :
    injectGuard e (injectOne e w r) r = false := by
  have hnow : 0 < e.now := injectGuard_now_pos e w r h
  unfold injectOne
  rw [if_pos h]
  have hwait : waitOk w.minWaitPeriodSeconds e.now e.now = false := by
    unfold waitOk
    simp only [Bool.or_eq_false_iff, beq_eq_false_iff_ne, ne_eq,
      decide_eq_false_iff_not]
    omega
  unfold injectGuard eligibleRecord
  simp [hwait]

/-- The controller balance is non-increasing across a whole candidate batch. -/
theorem foldl_injectOne_balance_le (e : Env) (l : List Addr) : ∀ w : World,
    (List.foldl (injectOne e) w l).ledger w.asset w.self ≤ w.ledger w.asset w.self := by
  induction l with
  | nil => intro w; exact le_refl _
  | cons x xs ih =>
    intro w
    rw [List.foldl_cons]
    have h1 := ih (injectOne e w x)
    rw [injectOne_asset, injectOne_self] at h1
    exact le_trans h1 (injectOne_balance_le e w x)

/-- After a whole batch is processed, every candidate of that batch fails
re-validation, provided the wait period is positive. -/
theorem injectGuard_false_after_foldl (e : Env) (l : List Addr) : ∀ w : World,
    0 < w.minWaitPeriodSeconds →
    ∀ r ∈ l, injectGuard e (List.foldl (injectOne e) w l) r = false := by
  induction l with
  | nil => intro w _ r hr; cases hr
  | cons x xs ih =>
    intro w hmw r hr
    rw [List.foldl_cons]
    rcases List.mem_cons.mp hr with h | h
    · subst h
      apply injectGuard_false_foldl
      cases hg : injectGuard e w r with
      | true => exact injectGuard_true_self e w r hmw hg
      | false => rw [injectOne_of_guard_false e w r hg]; exact hg
    · exact ih (injectOne e w x) (by rw [injectOne_minWait]; exact hmw) r h

/-- A batch none of whose candidates validates is a complete no-op. -/
theorem foldl_injectOne_id (e : Env) (l : List Addr) : ∀ w : World,
    (∀ r ∈ l, injectGuard e w r = false) → List.foldl (injectOne e) w l = w := by
  induction l with
  | nil => intro w _; rfl
  | cons x xs ih =>
    intro w h
    rw [List.foldl_cons, injectOne_of_guard_false e w x (h x (List.mem_cons_self x xs))]
    exact ih w (fun r hr => h r (List.mem_cons_of_mem x hr))

/-- Membership in the eligibility scan forces the per-record predicate and
that the amount fits the balance the scan started from. -/
theorem mem_getEligibleList (mw now : Nat) (pf : Addr → Nat)
    (acc : Addr → RecipientRecord) (l : List Addr) : ∀ (bal : Nat) (r : Addr),
    r ∈ getEligibleList mw now pf acc l bal →
    eligibleRecord mw now (pf r) (acc r) = true ∧ (acc r).amountPerPeriod ≤ bal := by
  induction l with
  | nil => intro bal r h; cases h
  | cons x xs ih =>
    intro bal r h
    rw [getEligibleList] at h
    by_cases hc : (eligibleRecord mw now (pf x) (acc x) &&
        decide ((acc x).amountPerPeriod ≤ bal)) = true
    · rw [if_pos hc] at h
      rcases List.mem_cons.mp h with hrx | hrec
      · subst hrx
        simp only [Bool.and_eq_true, decide_eq_true_eq] at hc
        exact hc
      · have := ih (bal - (acc x).amountPerPeriod) r hrec
        exact ⟨this.1, le_trans this.2 (Nat.sub_le _ _)⟩
    · rw [if_neg hc] at h
      exact ih bal r h

/-- The amounts of the recipients selected by the scan sum to at most the
balance the scan started from: the scan depletes the balance virtually. -/
theorem sumAmounts_getEligibleList (mw now : Nat) (pf : Addr → Nat)
    (acc : Addr → RecipientRecord) (l : List Addr) : ∀ bal : Nat,
    sumAmounts acc (getEligibleList mw now pf acc l bal) ≤ bal := by
  induction l with
  | nil => intro bal; simp [getEligibleList, sumAmounts]
  | cons x xs ih =>
    intro bal
    rw [getEligibleList]
    by_cases hc : (eligibleRecord mw now (pf x) (acc x) &&
        decide ((acc x).amountPerPeriod ≤ bal)) = true
    · rw [if_pos hc]
      simp only [Bool.and_eq_true, decide_eq_true_eq] at hc
      have hrec := ih (bal - (acc x).amountPerPeriod)
      simp only [sumAmounts, List.map_cons, List.sum_cons] at hrec ⊢
      omega
    · rw [if_neg hc]
      exact ih bal

/-- The eligibility scan returns a sublist of the scanned watchlist. -/
theorem getEligibleList_sublist (mw now : Nat) (pf : Addr → Nat)
    (acc : Addr → RecipientRecord) (l : List Addr) : ∀ bal : Nat,
    List.Sublist (getEligibleList mw now pf acc l bal) l := by
  induction l with
  | nil => intro bal; rw [getEligibleList]
  | cons x xs ih =>
    intro bal
    rw [getEligibleList]
    by_cases hc : (eligibleRecord mw now (pf x) (acc x) &&
        decide ((acc x).amountPerPeriod ≤ bal)) = true
    · rw [if_pos hc]
      exact List.Sublist.cons₂ x (ih _)
    · rw [if_neg hc]
      exact List.Sublist.cons x (ih bal)

/-- Concrete world for exercising the executor: one active recipient `1` with
`amountPerPeriod = 5`, `maxPeriods = 2`, nothing executed yet; the controller
(address `100`) holds `10` of asset `7`; the wait period is zero. -/
def c1World : World :=
  { owner := 0, pendingOwner := 0, paused := false, minWaitPeriodSeconds := 0,
    asset := 7, self := 100, watchList := [1],
    accounts := fun a => if a = 1 then ⟨true, 5, 2, 0, 0⟩ else ⟨false, 0, 0, 0, 0⟩,
    ledger := fun a h => if a = 7 ∧ h = 100 then 10 else 0,
    notifications := [] }

/-- Concrete environment: clock at `10`, recipient period ended at `0`. -/
def c1Env : Env := { now := 10, periodFinished := fun _ => 0 }

/-- State after one `performUpkeep` on `c1World`. -/
def c1After1 : World := orUnchanged c1World (performUpkeep c1Env c1World [1])

/-- State after a second, identical `performUpkeep`. -/
def c1After2 : World := orUnchanged c1After1 (performUpkeep c1Env c1After1 [1])

/-- Claim C1 counterexample: with `minWaitPeriodSeconds = 0` the claim fails as
stated. The recipient's externally reported period end (`0`) is unchanged
between the two calls, so both injections fall in the same round, yet
re-submitting the same encoding pays the recipient a second time: after the
first call it holds `5`, after the second `10`, and `periodsExecuted` is `2`.
The second application is not a no-op skip. -/
theorem c1_counterexample :
    c1World.minWaitPeriodSeconds = 0
  ∧ c1Env.periodFinished 1 = 0
  ∧ performUpkeep c1Env c1World [1] = Except.ok c1After1
  ∧ performUpkeep c1Env c1After1 [1] = Except.ok c1After2
  ∧ c1After1.ledger 7 1 = 5
  ∧ c1After2.ledger 7 1 = 10
  ∧ (c1After2.accounts 1).periodsExecuted = 2 :=
  ⟨rfl, rfl, rfl, rfl, rfl, rfl, rfl⟩

/-- Claim C1 (amended): provided `minWaitPeriodSeconds` is positive, running
`performUpkeep` twice in succession with the same encoding in the same
environment yields exactly one effective injection per recipient per round:
the second application returns the first call's post-state unchanged — a
no-op skip, not a double payment or an error — because the executor
re-derives eligibility at execution time and every freshly injected recipient
now fails the wait condition. -/
theorem performUpkeep_second_call_noop (e : Env) (w w1 : World) (enc : List Addr)
    (hmw : 0 < w.minWaitPeriodSeconds)
    (h : performUpkeep e w enc = Except.ok w1) :
    performUpkeep e w1 enc = Except.ok w1 := by
  unfold performUpkeep at h ⊢
  cases hp : w.paused with
  | true => rw [hp] at h; simp at h
  | false =>
    rw [hp] at h
    simp only [Bool.false_eq_true, if_false, Except.ok.injEq] at h
    subst h
    rw [foldl_injectOne_paused, hp]
    simp only [Bool.false_eq_true, if_false, Except.ok.injEq]
    exact foldl_injectOne_id e enc _ (injectGuard_false_after_foldl e enc w hmw)

/-- Variant of `c1World` with the test deployment's positive wait period. -/
def c1PosWorld : World := { c1World with minWaitPeriodSeconds := 300 }

/-- State after one `performUpkeep` on `c1PosWorld`. -/
def c1PosAfter : World := orUnchanged c1PosWorld (performUpkeep c1Env c1PosWorld [1])

/-- Witness for the amended C1 theorem at a concrete input. -/
theorem c1_witness :
    performUpkeep c1Env c1PosWorld [1] = Except.ok c1PosAfter
  ∧ performUpkeep c1Env c1PosAfter [1] = Except.ok c1PosAfter :=
  ⟨rfl, performUpkeep_second_call_noop c1Env c1PosWorld c1PosAfter [1] (by decide) rfl⟩

/-- Decomposition of the per-record eligibility predicate. -/
theorem eligibleRecord_spec (mw now pf : Nat) (t : RecipientRecord)
    (h : eligibleRecord mw now pf t = true) :
    t.isActive = true ∧ t.periodsExecuted < t.maxPeriods ∧ pf < now ∧
      (t.lastInjectionTimestamp = 0 ∨ t.lastInjectionTimestamp + mw ≤ now) := by
  unfold eligibleRecord waitOk at h
  simp only [Bool.and_eq_true, Bool.or_eq_true, decide_eq_true_eq, beq_iff_eq] at h
  exact ⟨h.1.1.1, h.1.1.2, h.1.2, h.2⟩

/-- Decomposition of the executor's re-validation guard. -/
theorem injectGuard_spec (e : Env) (w : World) (r : Addr)
    (h : injectGuard e w r = true) :
    (w.accounts r).isActive = true
  ∧ (w.accounts r).periodsExecuted < (w.accounts r).maxPeriods
  ∧ e.periodFinished r < e.now
  ∧ ((w.accounts r).lastInjectionTimestamp = 0 ∨
      (w.accounts r).lastInjectionTimestamp + w.minWaitPeriodSeconds ≤ e.now)
  ∧ (w.accounts r).amountPerPeriod ≤ w.ledger w.asset w.self := by
  unfold injectGuard at h
  simp only [Bool.and_eq_true, decide_eq_true_eq] at h
  have h1 := eligibleRecord_spec _ _ _ _ h.1
  exact ⟨h1.1, h1.2.1, h1.2.2.1, h1.2.2.2, h.2⟩

/-- A validated injection updates the candidate's own record by exactly one
executed round and a fresh stamp. -/
theorem injectOne_accounts_eq (e : Env) (w : World) (r : Addr)
    (hg : injectGuard e w r = true) :
    (injectOne e w r).accounts r =
      { w.accounts r with
        periodsExecuted := (w.accounts r).periodsExecuted + 1,
        lastInjectionTimestamp := e.now } := by
  unfold injectOne
  rw [if_pos hg]
  simp

/-- Processing one candidate preserves the round-cap invariant. -/
theorem injectOne_periodsInv (e : Env) (w : World) (x : Addr) (h : PeriodsInv w) :
    PeriodsInv (injectOne e w x) := by
  intro a
  by_cases hax : a = x
  · subst hax
    cases hg : injectGuard e w a with
    | false => rw [injectOne_of_guard_false e w a hg]; exact h a
    | true =>
      rw [injectOne_accounts_eq e w a hg]
      have := (injectGuard_spec e w a hg).2.1
      show (w.accounts a).periodsExecuted + 1 ≤ (w.accounts a).maxPeriods
      omega
  · rw [injectOne_accounts_ne e w x a hax]
    exact h a

/-- A whole candidate batch preserves the round-cap invariant. -/
theorem foldl_injectOne_periodsInv (e : Env) (l : List Addr) : ∀ w : World,
    PeriodsInv w → PeriodsInv (List.foldl (injectOne e) w l) := by
  induction l with
  | nil => intro w h; exact h
  | cons x xs ih =>
    intro w h
    rw [List.foldl_cons]
    exact ih _ (injectOne_periodsInv e w x h)

/-- Re-registration writes only fresh records (zero executed rounds) and
therefore preserves the round-cap invariant of the account map. -/
theorem registerAll_le (rs : List Addr) : ∀ (amts mxs : List Nat)
    (acc : Addr → RecipientRecord),
    (∀ a, (acc a).periodsExecuted ≤ (acc a).maxPeriods) →
    ∀ a, ((registerAll rs amts mxs acc) a).periodsExecuted ≤
      ((registerAll rs amts mxs acc) a).maxPeriods := by
  induction rs with
  | nil => intro amts mxs acc h a; simpa only [registerAll] using h a
  | cons r rs ih =>
    intro amts mxs acc h a
    cases amts with
    | nil => simpa only [registerAll] using h a
    | cons amt amts =>
      cases mxs with
      | nil => simpa only [registerAll] using h a
      | cons mx mxs =>
        simp only [registerAll]
        apply ih
        intro b
        by_cases hb : b = r
        · simp [hb]
        · simp only [if_neg hb]
          exact h b

/-- Registration does not touch recipients that are not named. -/
theorem registerAll_not_mem (rs : List Addr) : ∀ (amts mxs : List Nat)
    (acc : Addr → RecipientRecord) (a : Addr), a ∉ rs →
    registerAll rs amts mxs acc a = acc a := by
  induction rs with
  | nil => intro amts mxs acc a _; simp only [registerAll]
  | cons r rs ih =>
    intro amts mxs acc a ha
    cases amts with
    | nil => simp only [registerAll]
    | cons amt amts =>
      cases mxs with
      | nil => simp only [registerAll]
      | cons mx mxs =>
        simp only [registerAll]
        rw [ih _ _ _ a (fun h => ha (List.mem_cons_of_mem r h))]
        rw [if_neg (fun h => ha (List.mem_cons.mpr (Or.inl h)))]

/-- Every labelled step preserves the round-cap invariant. -/
theorem step_periodsInv (e : Env) (o : Op) (w : World) (h : PeriodsInv w) :
    PeriodsInv (step e o w) := by
  cases o with
  | opSetRecipientList c rs amts mxs =>
    simp only [step]
    unfold setRecipientList
    by_cases h1 : c = w.owner
    · rw [if_pos h1]
      by_cases h2 : rs.length = amts.length ∧ rs.length = mxs.length
      · rw [if_pos h2]
        apply registerAll_le
        intro b
        unfold deactivateAll
        by_cases hb : b ∈ w.watchList
        · rw [if_pos hb]; exact h b
        · rw [if_neg hb]; exact h b
      · rw [if_neg h2]; exact h
    · rw [if_neg h1]; exact h
  | opCheckUpkeep c => exact h
  | opPerformUpkeep c enc =>
    simp only [step]
    unfold performUpkeep
    by_cases hp : w.paused = true
    · rw [if_pos hp]; exact h
    · rw [if_neg hp]; exact foldl_injectOne_periodsInv e enc w h
  | opPause c =>
    simp only [step]
    unfold pauseOp
    by_cases hc : c = w.owner
    · rw [if_pos hc]; exact h
    · rw [if_neg hc]; exact h
  | opUnpause c =>
    simp only [step]
    unfold unpauseOp
    by_cases hc : c = w.owner
    · rw [if_pos hc]; exact h
    · rw [if_neg hc]; exact h
  | opSweep c a d =>
    simp only [step]
    unfold sweep
    by_cases hc : c = w.owner
    · rw [if_pos hc]; exact h
    · rw [if_neg hc]; exact h
  | opManualDeposit c r a amt =>
    simp only [step]
    unfold manualDeposit
    by_cases hc : c = w.owner
    · rw [if_pos hc]
      intro b
      show ((if b = r then { w.accounts r with lastInjectionTimestamp := e.now }
        else w.accounts b)).periodsExecuted ≤
        ((if b = r then { w.accounts r with lastInjectionTimestamp := e.now }
        else w.accounts b)).maxPeriods
      by_cases hb : b = r
      · rw [if_pos hb]; exact h r
      · rw [if_neg hb]; exact h b
    · rw [if_neg hc]; exact h
  | opTransferOwnership c n =>
    simp only [step]
    unfold transferOwnership
    by_cases hc : c = w.owner
    · rw [if_pos hc]; exact h
    · rw [if_neg hc]; exact h
  | opAcceptOwnership c =>
    simp only [step]
    unfold acceptOwnership
    by_cases hc : c = w.pendingOwner
    · rw [if_pos hc]; exact h
    · rw [if_neg hc]; exact h
  | opExtTransfer a s d amt => exact h

/-- Processing one candidate cannot revive an exhausted recipient. -/
theorem injectOne_exhausted (e : Env) (w : World) (x r : Addr)
    (h : ExhaustedAt w r) : ExhaustedAt (injectOne e w x) r := by
  by_cases hx : r = x
  · subst hx
    cases hg : injectGuard e w r with
    | false => unfold ExhaustedAt; rw [injectOne_of_guard_false e w r hg]; exact h
    | true =>
      have := (injectGuard_spec e w r hg).2.1
      unfold ExhaustedAt at h
      omega
  · unfold ExhaustedAt
    rw [injectOne_accounts_ne e w x r hx]
    exact h

/-- A whole candidate batch cannot revive an exhausted recipient. -/
theorem foldl_injectOne_exhausted (e : Env) (l : List Addr) : ∀ (w : World) (r : Addr),
    ExhaustedAt w r → ExhaustedAt (List.foldl (injectOne e) w l) r := by
  induction l with
  | nil => intro w r h; exact h
  | cons x xs ih =>
    intro w r h
    rw [List.foldl_cons]
    exact ih _ r (injectOne_exhausted e w x r h)

/-- Every labelled step that does not re-register a given exhausted recipient
keeps it exhausted: in particular a registry bulk-set that omits it only
deactivates its record, leaving counter and cap untouched. -/
theorem step_exhausted (e : Env) (o : Op) (w : World) (r : Addr)
    (hnot : reregisters r o = false) (h : ExhaustedAt w r) :
    ExhaustedAt (step e o w) r := by
  cases o with
  | opSetRecipientList c rs amts mxs =>
    have hr : r ∉ rs := by
      simp only [reregisters, decide_eq_false_iff_not] at hnot
      exact hnot
    simp only [step]
    unfold setRecipientList
    by_cases h1 : c = w.owner
    · rw [if_pos h1]
      by_cases h2 : rs.length = amts.length ∧ rs.length = mxs.length
      · rw [if_pos h2]
        show (registerAll rs amts mxs
            (deactivateAll w.watchList w.accounts) r).periodsExecuted =
          (registerAll rs amts mxs
            (deactivateAll w.watchList w.accounts) r).maxPeriods
        rw [registerAll_not_mem rs amts mxs _ r hr]
        unfold deactivateAll
        by_cases hw : r ∈ w.watchList
        · rw [if_pos hw]; exact h
        · rw [if_neg hw]; exact h
      · rw [if_neg h2]; exact h
    · rw [if_neg h1]; exact h
  | opCheckUpkeep c => exact h
  | opPerformUpkeep c enc =>
    simp only [step]
    unfold performUpkeep
    by_cases hp : w.paused = true
    · rw [if_pos hp]; exact h
    · rw [if_neg hp]; exact foldl_injectOne_exhausted e enc w r h
  | opPause c =>
    simp only [step]
    unfold pauseOp
    by_cases hc : c = w.owner
    · rw [if_pos hc]; exact h
    · rw [if_neg hc]; exact h
  | opUnpause c =>
    simp only [step]
    unfold unpauseOp
    by_cases hc : c = w.owner
    · rw [if_pos hc]; exact h
    · rw [if_neg hc]; exact h
  | opSweep c a d =>
    simp only [step]
    unfold sweep
    by_cases hc : c = w.owner
    · rw [if_pos hc]; exact h
    · rw [if_neg hc]; exact h
  | opManualDeposit c rr a amt =>
    simp only [step]
    unfold manualDeposit
    by_cases hc : c = w.owner
    · rw [if_pos hc]
      show ((if r = rr then { w.accounts rr with lastInjectionTimestamp := e.now }
        else w.accounts r)).periodsExecuted =
        ((if r = rr then { w.accounts rr with lastInjectionTimestamp := e.now }
        else w.accounts r)).maxPeriods
      by_cases hb : r = rr
      · rw [if_pos hb]; subst hb; exact h
      · rw [if_neg hb]; exact h
    · rw [if_neg hc]; exact h
  | opTransferOwnership c n =>
    simp only [step]
    unfold transferOwnership
    by_cases hc : c = w.owner
    · rw [if_pos hc]; exact h
    · rw [if_neg hc]; exact h
  | opAcceptOwnership c =>
    simp only [step]
    unfold acceptOwnership
    by_cases hc : c = w.pendingOwner
    · rw [if_pos hc]; exact h
    · rw [if_neg hc]; exact h
  | opExtTransfer a s d amt => exact h

/-- The round-cap invariant holds along every trace. -/
theorem run_periodsInv (tr : List (Env × Op)) : ∀ w : World,
    PeriodsInv w → PeriodsInv (run tr w) := by
  induction tr with
  | nil => intro w h; exact h
  | cons p tl ih =>
    intro w h
    show PeriodsInv (run tl (step p.1 p.2 w))
    exact ih _ (step_periodsInv p.1 p.2 w h)

/-- An exhausted recipient stays exhausted along every trace in which no
registry bulk-set names it — bulk-sets that omit it are allowed. -/
theorem run_exhausted (tr : List (Env × Op)) : ∀ (w : World) (r : Addr),
    (∀ p ∈ tr, reregisters r p.2 = false) → ExhaustedAt w r →
    ExhaustedAt (run tr w) r := by
  induction tr with
  | nil => intro w r _ h; exact h
  | cons p tl ih =>
    intro w r hns h
    show ExhaustedAt (run tl (step p.1 p.2 w)) r
    exact ih _ r (fun q hq => hns q (List.mem_cons_of_mem p hq))
      (step_exhausted p.1 p.2 w r (hns p (List.mem_cons_self p tl)) h)

/-- An exhausted recipient is never reported eligible by `checkUpkeep`. -/
theorem exhausted_not_eligible (e : Env) (w : World) (r : Addr)
    (h : ExhaustedAt w r) (needed : Bool) (elig : List Addr)
    (hc : checkUpkeep e w = Except.ok (needed, elig)) : r ∉ elig := by
  intro hmem
  unfold checkUpkeep at hc
  by_cases hp : w.paused = true
  · rw [if_pos hp] at hc
    exact Except.noConfusion hc
  · rw [if_neg hp] at hc
    have helig : elig = getEligibleList w.minWaitPeriodSeconds e.now e.periodFinished
        w.accounts w.watchList (w.ledger w.asset w.self) := by
      have := (Except.ok.injEq _ _).mp hc
      exact (Prod.mk.injEq _ _ _ _ |>.mp this).2.symm
    rw [helig] at hmem
    have hspec := (mem_getEligibleList _ _ _ _ _ _ r hmem).1
    have := (eligibleRecord_spec _ _ _ _ hspec).2.1
    unfold ExhaustedAt at h
    omega

/-- Claim C2: for every state satisfying the round-cap invariant and every
trace of operations, the invariant `periodsExecuted ≤ maxPeriods` is
preserved; and once a recipient's counter equals its cap, then along any trace
in which no `setRecipientList` call names that recipient — other recipients
may be re-registered freely — it stays exhausted and `checkUpkeep` never
again reports it eligible, regardless of elapsed time or balance. -/
theorem periodsExecuted_bounded (w : World) (hInv : PeriodsInv w)
    (tr : List (Env × Op)) :
    PeriodsInv (run tr w)
  ∧ ∀ r, ExhaustedAt w r → (∀ p ∈ tr, reregisters r p.2 = false) →
      ExhaustedAt (run tr w) r
      ∧ ∀ (e : Env) (needed : Bool) (elig : List Addr),
          checkUpkeep e (run tr w) = Except.ok (needed, elig) → r ∉ elig := by
  refine ⟨run_periodsInv tr w hInv, fun r hex hns => ?_⟩
  have hex2 := run_exhausted tr w r hns hex
  exact ⟨hex2, fun e needed elig hc =>
    exhausted_not_eligible e (run tr w) r hex2 needed elig hc⟩

/-- Base concrete world: no recipients registered, empty ledger, unpaused,
with the test deployment's wait period. -/
def baseWorld : World :=
  { owner := 0, pendingOwner := 0, paused := false, minWaitPeriodSeconds := 300,
    asset := 7, self := 100, watchList := [],
    accounts := fun _ => ⟨false, 0, 0, 0, 0⟩, ledger := fun _ _ => 0,
    notifications := [] }

/-- Base concrete environment. -/
def baseEnv : Env := { now := 1000, periodFinished := fun _ => 0 }

/-- Witness for the C2 theorem at a concrete input: the trace contains a
registry bulk-set that re-registers recipient `1` while omitting the
exhausted recipient `5`, followed by a pause. -/
theorem c2_witness :
    PeriodsInv (run [(baseEnv, Op.opSetRecipientList 0 [1] [5] [2]),
      (baseEnv, Op.opPause 0)] baseWorld)
  ∧ ExhaustedAt (run [(baseEnv, Op.opSetRecipientList 0 [1] [5] [2]),
      (baseEnv, Op.opPause 0)] baseWorld) 5 := by
  have h := periodsExecuted_bounded baseWorld (fun _ => Nat.le_refl 0)
    [(baseEnv, Op.opSetRecipientList 0 [1] [5] [2]), (baseEnv, Op.opPause 0)]
  exact ⟨h.1, (h.2 5 rfl (by decide)).1⟩

/-- Claim C3: an injection for a recipient is only executed when,
simultaneously: the system is not paused (a paused call fails outright),
`periodsExecuted < maxPeriods`, the local asset balance is at least
`amountPerPeriod`, the clock is strictly past the externally reported period
end, and the wait condition holds (`lastInjectionTimestamp` unset, or at
least `minWaitPeriodSeconds` elapsed since it). Both the reporting direction
(membership in a successful `checkUpkeep` result implies every conjunct — so
a recipient with any failed conjunct is never reported) and the execution
direction (the executor's re-validation guard implies every conjunct, and a
failed guard means no injection) hold. -/
theorem eligibility_conjuncts (e : Env) (w : World) (r : Addr) :
    (∀ (needed : Bool) (elig : List Addr),
        checkUpkeep e w = Except.ok (needed, elig) → r ∈ elig →
        w.paused = false
      ∧ (w.accounts r).periodsExecuted < (w.accounts r).maxPeriods
      ∧ (w.accounts r).amountPerPeriod ≤ w.ledger w.asset w.self
      ∧ e.periodFinished r < e.now
      ∧ ((w.accounts r).lastInjectionTimestamp = 0 ∨
          (w.accounts r).lastInjectionTimestamp + w.minWaitPeriodSeconds ≤ e.now))
  ∧ (injectGuard e w r = true →
        (w.accounts r).periodsExecuted < (w.accounts r).maxPeriods
      ∧ (w.accounts r).amountPerPeriod ≤ w.ledger w.asset w.self
      ∧ e.periodFinished r < e.now
      ∧ ((w.accounts r).lastInjectionTimestamp = 0 ∨
          (w.accounts r).lastInjectionTimestamp + w.minWaitPeriodSeconds ≤ e.now))
  ∧ (w.paused = true → ∀ enc, performUpkeep e w enc = Except.error Err.Paused)
  ∧ (injectGuard e w r = false → injectOne e w r = w) := by
  refine ⟨?_, ?_, ?_, injectOne_of_guard_false e w r⟩
  · intro needed elig hc hmem
    cases hpb : w.paused with
    | true =>
      unfold checkUpkeep at hc
      rw [if_pos hpb] at hc
      exact Except.noConfusion hc
    | false =>
      unfold checkUpkeep at hc
      rw [if_neg (by rw [hpb]; exact Bool.false_ne_true)] at hc
      have helig : elig = getEligibleList w.minWaitPeriodSeconds e.now
          e.periodFinished w.accounts w.watchList (w.ledger w.asset w.self) := by
        have := (Except.ok.injEq _ _).mp hc
        exact (Prod.mk.injEq _ _ _ _ |>.mp this).2.symm
      rw [helig] at hmem
      have hm := mem_getEligibleList _ _ _ _ _ _ r hmem
      have hs := eligibleRecord_spec _ _ _ _ hm.1
      exact ⟨rfl, hs.2.1, hm.2, hs.2.2.1, hs.2.2.2⟩
  · intro hg
    have hs := injectGuard_spec e w r hg
    exact ⟨hs.2.1, hs.2.2.2.2, hs.2.2.1, hs.2.2.2.1⟩
  · intro hp enc
    unfold performUpkeep
    rw [if_pos hp]

/-- Concrete world with one active, fully eligible recipient `1`
(`amountPerPeriod = 5`, `maxPeriods = 2`) and a controller balance of `10`. -/
def eligWorld : World :=
  { owner := 0, pendingOwner := 0, paused := false, minWaitPeriodSeconds := 300,
    asset := 7, self := 100, watchList := [1],
    accounts := fun a => if a = 1 then ⟨true, 5, 2, 0, 0⟩ else ⟨false, 0, 0, 0, 0⟩,
    ledger := fun a h => if a = 7 ∧ h = 100 then 10 else 0,
    notifications := [] }

/-- Witness for the C3 theorem at a concrete input. -/
theorem c3_witness :
    eligWorld.paused = false
  ∧ (eligWorld.accounts 1).periodsExecuted < (eligWorld.accounts 1).maxPeriods
  ∧ (eligWorld.accounts 1).amountPerPeriod ≤
      eligWorld.ledger eligWorld.asset eligWorld.self
  ∧ baseEnv.periodFinished 1 < baseEnv.now
  ∧ ((eligWorld.accounts 1).lastInjectionTimestamp = 0 ∨
      (eligWorld.accounts 1).lastInjectionTimestamp +
        eligWorld.minWaitPeriodSeconds ≤ baseEnv.now) :=
  (eligibility_conjuncts baseEnv eligWorld 1).1 true [1] rfl (by decide)


/-- With pairwise-distinct names, each registered recipient ends up with
exactly its positional amount and cap, zero executed rounds and an unset
stamp. -/
theorem registerAll_get (rs : List Addr) : ∀ (amts mxs : List Nat)
    (acc : Addr → RecipientRecord), rs.Nodup →
    ∀ (i : Nat) (hi : i < rs.length) (hi1 : i < amts.length) (hi2 : i < mxs.length),
    registerAll rs amts mxs acc (rs.get ⟨i, hi⟩) =
      ⟨true, amts.get ⟨i, hi1⟩, mxs.get ⟨i, hi2⟩, 0, 0⟩ := by
  induction rs with
  | nil => intro amts mxs acc _ i hi _ _; exact absurd hi (by simp)
  | cons r rs ih =>
    intro amts mxs acc hnd i hi hi1 hi2
    cases amts with
    | nil => exact absurd hi1 (by simp)
    | cons amt amts =>
      cases mxs with
      | nil => exact absurd hi2 (by simp)
      | cons mx mxs =>
        simp only [registerAll]
        cases i with
        | zero =>
          show registerAll rs amts mxs
            (fun a => if a = r then ⟨true, amt, mx, 0, 0⟩ else acc a) r =
            ⟨true, amt, mx, 0, 0⟩
          rw [registerAll_not_mem rs amts mxs _ r (List.nodup_cons.mp hnd).1]
          rw [if_pos rfl]
        | succ n =>
          show registerAll rs amts mxs
            (fun a => if a = r then ⟨true, amt, mx, 0, 0⟩ else acc a)
            (rs.get ⟨n, Nat.lt_of_succ_lt_succ hi⟩) =
            ⟨true, amts.get ⟨n, Nat.lt_of_succ_lt_succ hi1⟩,
              mxs.get ⟨n, Nat.lt_of_succ_lt_succ hi2⟩, 0, 0⟩
          exact ih amts mxs _ (List.nodup_cons.mp hnd).2 n
            (Nat.lt_of_succ_lt_succ hi) (Nat.lt_of_succ_lt_succ hi1)
            (Nat.lt_of_succ_lt_succ hi2)

/-- Claim C4 (amended): for three equal-length sequences whose recipients are
pairwise distinct, a successful owner call to `setRecipientList` atomically
replaces the whole watchlist: afterwards the watchlist equals exactly the
provided recipient sequence in order, every named recipient's account info is
`(true, amount_i, maxPeriods_i, 0, 0)`, and every previously watched
recipient omitted from the call is inactive. (Distinctness is necessary: with
duplicates the later registration overwrites the earlier one.) -/
theorem setRecipientList_spec (caller : Addr) (rs : List Addr)
    (amts mxs : List Nat) (w w2 : World) (hnd : rs.Nodup)
    (h : setRecipientList caller rs amts mxs w = Except.ok w2) :
    getWatchList w2 = rs
  ∧ (∀ (i : Nat) (hi : i < rs.length) (hi1 : i < amts.length)
      (hi2 : i < mxs.length),
      getAccountInfo w2 (rs.get ⟨i, hi⟩) =
        (true, amts.get ⟨i, hi1⟩, mxs.get ⟨i, hi2⟩, 0, 0))
  ∧ (∀ a, a ∈ w.watchList → a ∉ rs → (w2.accounts a).isActive = false) := by
  unfold setRecipientList at h
  by_cases h1 : caller = w.owner
  · rw [if_pos h1] at h
    by_cases h2 : rs.length = amts.length ∧ rs.length = mxs.length
    · rw [if_pos h2] at h
      have hw : w2 = { w with
          watchList := rs,
          accounts := registerAll rs amts mxs
            (deactivateAll w.watchList w.accounts) } :=
        ((Except.ok.injEq _ _).mp h).symm
      subst hw
      refine ⟨rfl, ?_, ?_⟩
      · intro i hi hi1 hi2
        have hg := registerAll_get rs amts mxs
          (deactivateAll w.watchList w.accounts) hnd i hi hi1 hi2
        simp only [List.get_eq_getElem] at hg
        simp [getAccountInfo, hg]
      · intro a ha hna
        show ((registerAll rs amts mxs
          (deactivateAll w.watchList w.accounts)) a).isActive = false
        rw [registerAll_not_mem rs amts mxs _ a hna]
        unfold deactivateAll
        rw [if_pos ha]
    · rw [if_neg h2] at h; exact Except.noConfusion h
  · rw [if_neg h1] at h; exact Except.noConfusion h

/-- State after registering recipient `1` twice with different parameters. -/
def c4After : World :=
  orUnchanged baseWorld (setRecipientList 0 [1, 1] [5, 7] [2, 3] baseWorld)

/-- Claim C4 counterexample: the claim quantifies over any three equal-length
sequences, but with the duplicate recipient sequence `[1, 1]`, amounts
`[5, 7]` and caps `[2, 3]` the call succeeds and the registry, keyed by
identity, keeps the later registration: `getAccountInfo` of recipient index 0
is `(true, 7, 3, 0, 0)`, not `(true, 5, 2, 0, 0)` as the claim requires for
`i = 0`. -/
theorem c4_counterexample :
    setRecipientList 0 [1, 1] [5, 7] [2, 3] baseWorld = Except.ok c4After
  ∧ getWatchList c4After = [1, 1]
  ∧ getAccountInfo c4After 1 = (true, 7, 3, 0, 0)
  ∧ getAccountInfo c4After 1 ≠ (true, 5, 2, 0, 0) := by
  refine ⟨rfl, rfl, rfl, ?_⟩
  decide

/-- State after registering distinct recipients `1` and `2`. -/
def c4GoodAfter : World :=
  orUnchanged baseWorld (setRecipientList 0 [1, 2] [5, 7] [2, 3] baseWorld)

/-- Witness for the amended C4 theorem at a concrete input. -/
theorem c4_witness :
    getWatchList c4GoodAfter = [1, 2]
  ∧ getAccountInfo c4GoodAfter 1 = (true, 5, 2, 0, 0) := by
  have h := setRecipientList_spec 0 [1, 2] [5, 7] [2, 3] baseWorld c4GoodAfter
    (by decide) rfl
  exact ⟨h.1, h.2.1 0 (by decide) (by decide) (by decide)⟩

/-- Claim C5: with the system unpaused, `performUpkeep` always completes
(processing every candidate with skip-and-continue semantics), and for a
candidate distinct from the controller that still validates at execution
time, the step transfers exactly `amountPerPeriod` of the configured asset to
the recipient (debiting the controller by the same amount), appends a deposit
notification to the recipient, increments its `periodsExecuted` by one and
sets its `lastInjectionTimestamp` to the current time; a candidate that no
longer validates is skipped with no state change at all. -/
theorem performUpkeep_effects (e : Env) (w : World) (enc : List Addr) (r : Addr)
    (hp : w.paused = false) (hr : r ≠ w.self) :
    performUpkeep e w enc = Except.ok (List.foldl (injectOne e) w enc)
  ∧ (injectGuard e w r = true →
        (injectOne e w r).ledger w.asset r =
          w.ledger w.asset r + (w.accounts r).amountPerPeriod
      ∧ (injectOne e w r).ledger w.asset w.self =
          w.ledger w.asset w.self - (w.accounts r).amountPerPeriod
      ∧ (injectOne e w r).notifications =
          w.notifications ++ [(r, w.asset, (w.accounts r).amountPerPeriod)]
      ∧ ((injectOne e w r).accounts r).periodsExecuted =
          (w.accounts r).periodsExecuted + 1
      ∧ ((injectOne e w r).accounts r).lastInjectionTimestamp = e.now)
  ∧ (injectGuard e w r = false → injectOne e w r = w) := by
  have hsr : w.self ≠ r := Ne.symm hr
  refine ⟨?_, ?_, injectOne_of_guard_false e w r⟩
  · unfold performUpkeep
    rw [if_neg (by rw [hp]; exact Bool.false_ne_true)]
  · intro hg
    unfold injectOne
    rw [if_pos hg]
    refine ⟨?_, ?_, rfl, ?_, ?_⟩
    · show doTransfer w.ledger w.asset w.self r (w.accounts r).amountPerPeriod
        w.asset r = w.ledger w.asset r + (w.accounts r).amountPerPeriod
      unfold doTransfer
      rw [if_pos rfl, if_neg hsr, if_neg hr, if_pos rfl]
    · show doTransfer w.ledger w.asset w.self r (w.accounts r).amountPerPeriod
        w.asset w.self = w.ledger w.asset w.self - (w.accounts r).amountPerPeriod
      unfold doTransfer
      rw [if_pos rfl, if_neg hsr, if_pos rfl]
    · show (if r = r then
          { w.accounts r with
            periodsExecuted := (w.accounts r).periodsExecuted + 1,
            lastInjectionTimestamp := e.now }
          else w.accounts r).periodsExecuted = (w.accounts r).periodsExecuted + 1
      rw [if_pos rfl]
    · show (if r = r then
          { w.accounts r with
            periodsExecuted := (w.accounts r).periodsExecuted + 1,
            lastInjectionTimestamp := e.now }
          else w.accounts r).lastInjectionTimestamp = e.now
      rw [if_pos rfl]

/-- Witness for the C5 theorem at a concrete input. -/
theorem c5_witness :
    performUpkeep baseEnv eligWorld [1] =
      Except.ok (List.foldl (injectOne baseEnv) eligWorld [1])
  ∧ (injectOne baseEnv eligWorld 1).ledger eligWorld.asset 1 =
      eligWorld.ledger eligWorld.asset 1 + (eligWorld.accounts 1).amountPerPeriod := by
  have h := performUpkeep_effects baseEnv eligWorld [1] 1 rfl (by decide)
  exact ⟨h.1, (h.2.1 (by decide)).1⟩

/-- Claim C6: the eligibility scan checks the shared local balance
cumulatively in watchlist order, depleting it virtually: the selected
recipients form a sublist of the watchlist whose amounts sum to at most the
starting balance, the returned encoding is bounded in size by the watchlist
length, and a recipient that is time-eligible but whose amount exceeds the
running balance is dropped from this call's result without consuming any
balance — the remaining recipients are scanned against the very same running
balance, so an underfunded recipient never blocks later ones, and nothing is
persisted about the skip. -/
theorem eligibleList_cumulative (mw now : Nat) (pf : Addr → Nat)
    (acc : Addr → RecipientRecord) (l : List Addr) (bal : Nat) (r : Addr) :
    List.Sublist (getEligibleList mw now pf acc l bal) l
  ∧ sumAmounts acc (getEligibleList mw now pf acc l bal) ≤ bal
  ∧ (getEligibleList mw now pf acc l bal).length ≤ l.length
  ∧ (eligibleRecord mw now (pf r) (acc r) = true →
      bal < (acc r).amountPerPeriod →
      getEligibleList mw now pf acc (r :: l) bal =
        getEligibleList mw now pf acc l bal) := by
  refine ⟨getEligibleList_sublist mw now pf acc l bal,
    sumAmounts_getEligibleList mw now pf acc l bal,
    List.Sublist.length_le (getEligibleList_sublist mw now pf acc l bal), ?_⟩
  intro helig hbal
  have hcond : (eligibleRecord mw now (pf r) (acc r) &&
      decide ((acc r).amountPerPeriod ≤ bal)) = false := by
    rw [helig, Bool.true_and, decide_eq_false_iff_not]
    omega
  rw [getEligibleList, hcond]
  simp

/-- Witness for the C6 theorem at a concrete input: recipient `1` is
time-eligible but its amount `5` exceeds the balance `4`, so it is skipped
and the rest of the list is scanned with the same balance. -/
theorem c6_witness :
    getEligibleList 300 1000 baseEnv.periodFinished eligWorld.accounts
      (1 :: [1]) 4 =
      getEligibleList 300 1000 baseEnv.periodFinished eligWorld.accounts [1] 4
  ∧ sumAmounts eligWorld.accounts
      (getEligibleList 300 1000 baseEnv.periodFinished eligWorld.accounts [1] 4)
      ≤ 4 := by
  have h := eligibleList_cumulative 300 1000 baseEnv.periodFinished
    eligWorld.accounts [1] 4 1
  exact ⟨h.2.2.2 (by decide) (by decide), h.2.1⟩

/-- Claim C7: `checkUpkeep` is a pure read — any trace consisting solely of
`checkUpkeep` invocations, by any callers in any environments, leaves the
entire persisted state (records, stamps, watchlist, configuration, ledger)
unchanged. -/
theorem checkUpkeep_pure (tr : List (Env × Op)) : ∀ w : World,
    (∀ p ∈ tr, isCheckOp p.2 = true) → run tr w = w := by
  induction tr with
  | nil => intro w _; rfl
  | cons p tl ih =>
    intro w h
    have hp := h p (List.mem_cons_self p tl)
    have hstep : step p.1 p.2 w = w := by
      rcases p with ⟨e, o⟩
      cases o <;> first | rfl | simp [isCheckOp] at hp
    show run tl (step p.1 p.2 w) = w
    rw [hstep]
    exact ih w (fun q hq => h q (List.mem_cons_of_mem p hq))

/-- Witness for the C7 theorem at a concrete input. -/
theorem c7_witness :
    run [(baseEnv, Op.opCheckUpkeep 3), (baseEnv, Op.opCheckUpkeep 4)] eligWorld =
      eligWorld :=
  checkUpkeep_pure [(baseEnv, Op.opCheckUpkeep 3), (baseEnv, Op.opCheckUpkeep 4)]
    eligWorld (by decide)

/-- Claim C8: while paused, both `checkUpkeep` and `performUpkeep` fail with
the `Paused` error for every input and caller; and an owner pause immediately
followed by an owner unpause returns exactly the original state — the cycle
changes nothing but the pause flag, which it restores. -/
theorem paused_blocks (e1 e2 : Env) (w : World) (enc : List Addr) (c : Addr) :
    (w.paused = true →
        checkUpkeep e1 w = Except.error Err.Paused
      ∧ performUpkeep e1 w enc = Except.error Err.Paused)
  ∧ (c = w.owner → w.paused = false →
      step e2 (Op.opUnpause c) (step e1 (Op.opPause c) w) = w) := by
  constructor
  · intro hp
    constructor
    · unfold checkUpkeep; rw [if_pos hp]
    · unfold performUpkeep; rw [if_pos hp]
  · intro hc hp
    have h1 : step e1 (Op.opPause c) w = { w with paused := true } := by
      simp only [step]; unfold pauseOp; rw [if_pos hc]; rfl
    rw [h1]
    have h2 : step e2 (Op.opUnpause c) { w with paused := true } =
        { w with paused := false } := by
      simp only [step]; unfold unpauseOp
      rw [if_pos (show c = ({ w with paused := true } : World).owner from hc)]
      rfl
    rw [h2]
    cases w
    simp_all

/-- Concrete paused world. -/
def pausedWorld : World := { baseWorld with paused := true }

/-- Witness for the C8 theorem at concrete inputs. -/
theorem c8_witness :
    (checkUpkeep baseEnv pausedWorld = Except.error Err.Paused
      ∧ performUpkeep baseEnv pausedWorld [] = Except.error Err.Paused)
  ∧ step baseEnv (Op.opUnpause 0) (step baseEnv (Op.opPause 0) baseWorld) =
      baseWorld :=
  ⟨(paused_blocks baseEnv baseEnv pausedWorld [] 0).1 rfl,
    (paused_blocks baseEnv baseEnv baseWorld [] 0).2 rfl rfl⟩

/-- Claim C9: an owner call to `sweep` succeeds for every asset and
destination, transfers the controller's entire local balance of that asset to
the destination (so the sum of the destination's and the controller's
balances of that asset is unchanged across the call), and leaves the account
records — in particular all `periodsExecuted` bookkeeping — and the watchlist
untouched; a sweep attempted by any non-owner caller is rejected with
`Unauthorized` and changes no state. -/
theorem sweep_conserves (e : Env) (c asset dest : Addr) (w : World) :
    (c = w.owner → ∃ w2, sweep c asset dest w = Except.ok w2
      ∧ w2.ledger asset dest + w2.ledger asset w.self =
          w.ledger asset dest + w.ledger asset w.self
      ∧ (dest ≠ w.self →
          w2.ledger asset dest = w.ledger asset dest + w.ledger asset w.self
          ∧ w2.ledger asset w.self = 0)
      ∧ w2.accounts = w.accounts ∧ w2.watchList = w.watchList)
  ∧ (c ≠ w.owner → sweep c asset dest w = Except.error Err.Unauthorized
      ∧ step e (Op.opSweep c asset dest) w = w) := by
  constructor
  · intro hc
    refine ⟨{ w with
        ledger := doTransfer w.ledger asset w.self dest (w.ledger asset w.self) },
      by unfold sweep; rw [if_pos hc], ?_, ?_, rfl, rfl⟩
    · show doTransfer w.ledger asset w.self dest (w.ledger asset w.self) asset dest +
        doTransfer w.ledger asset w.self dest (w.ledger asset w.self) asset w.self =
        w.ledger asset dest + w.ledger asset w.self
      by_cases hd : dest = w.self
      · subst hd
        simp [doTransfer]
      · have hsd : w.self ≠ dest := fun h => hd h.symm
        simp only [doTransfer, if_pos rfl, if_neg hsd, if_neg hd, if_true]
        omega
    · intro hd
      have hsd : w.self ≠ dest := fun h => hd h.symm
      constructor
      · show doTransfer w.ledger asset w.self dest (w.ledger asset w.self)
          asset dest = w.ledger asset dest + w.ledger asset w.self
        simp only [doTransfer, if_pos rfl, if_neg hsd, if_neg hd, if_true]
      · show doTransfer w.ledger asset w.self dest (w.ledger asset w.self)
          asset w.self = 0
        simp only [doTransfer, if_pos rfl, if_neg hsd, if_true]
        omega
  · intro hc
    constructor
    · unfold sweep; rw [if_neg hc]
    · simp only [step]; unfold sweep; rw [if_neg hc]; rfl

/-- Witness for the C9 theorem at concrete inputs. -/
theorem c9_witness :
    (∃ w2, sweep 0 7 3 baseWorld = Except.ok w2
      ∧ w2.ledger 7 3 + w2.ledger 7 baseWorld.self =
          baseWorld.ledger 7 3 + baseWorld.ledger 7 baseWorld.self
      ∧ (3 ≠ baseWorld.self →
          w2.ledger 7 3 = baseWorld.ledger 7 3 + baseWorld.ledger 7 baseWorld.self
          ∧ w2.ledger 7 baseWorld.self = 0)
      ∧ w2.accounts = baseWorld.accounts ∧ w2.watchList = baseWorld.watchList)
  ∧ (sweep 1 7 3 baseWorld = Except.error Err.Unauthorized
      ∧ step baseEnv (Op.opSweep 1 7 3) baseWorld = baseWorld) :=
  ⟨(sweep_conserves baseEnv 0 7 3 baseWorld).1 rfl,
    (sweep_conserves baseEnv 1 7 3 baseWorld).2 (by decide)⟩

/-- Claim C10: the production deployment script passes `60 * 60 * 7 = 25200`
seconds (seven hours) as the `minWaitPeriodSeconds` constructor argument — not
one week (`604800` seconds) as its inline comment states — and the test
deployment independently uses `60 * 5 = 300` seconds. -/
theorem deploy_constants :
    deployMinWaitPeriodSeconds = 25200
  ∧ secondsPerWeek = 604800
  ∧ deployMinWaitPeriodSeconds ≠ secondsPerWeek
  ∧ conftestMinWaitPeriodSeconds = 300 := by
  refine ⟨rfl, rfl, ?_, rfl⟩
  decide
